import Mathlib

/-!
A verification development for the RM-Scheduler repository.

The repository contains two parallel scheduler stacks:
* the RM stack: `src/scheduler/base.py`, `src/scheduler/rm_scheduler.py`,
  with job instances from `src/job.py`;
* the EDF stack: `src/scheduler.py`, with task instances from `src/task.py`.

Each stack consumes a static periodic-task descriptor class (constructed with
`pk`/`computation`/`period` and, on the EDF side, a relative `deadline`, and
exposing a `utility` property) that is not present under `src/`; those two
descriptors are modelled from the spec (§3) and are marked as such below.
All other definitions are translated directly from the sources.

Machine arithmetic: the Python sources compute on ints (and floats for
utilizations and the Liu & Layland bound).  Integers are modelled as `ℤ`,
utilizations as `ℚ` (exact), and the irrational utilization bound as `ℝ`.
Python's `//` and `math.floor(a / b)` on integers are `Int.fdiv`.
-/

/-- Modelled from the spec: the static periodic-task descriptor of §3 for the
RM stack.  The `Task` class that `BaseScheduler.__create_tasks`
(src/scheduler/base.py:32-40) constructs with
`Task(pk=d['id'], computation=d['exec_time'], period=d['period'])` is not
present under src/; its fields are taken from that constructor call, and its
reads (`task.pk`, `task.computation`, `task.period`) appear in src/job.py and
src/scheduler/rm_scheduler.py. -/
structure RMTask where
  pk : ℤ
  computation : ℤ
  period : ℤ
deriving DecidableEq

/-- Modelled from the spec: derived utilization `computation / period` (§3);
the `task.utility` property is read by `RMScheduler.is_feasible`
(src/scheduler/rm_scheduler.py:129). -/
def RMTask.utility (t : RMTask) : ℚ := (t.computation : ℚ) / (t.period : ℚ)

/-- Modelled from the spec: the relative deadline of an RM-side descriptor
"defaults to `period` when absent" (§3); `BaseScheduler.__create_tasks` never
supplies a distinct one. -/
def RMTask.relative_deadline (t : RMTask) : ℤ := t.period

/-- One released instance of a task on the RM side: class `Job` in src/job.py
with fields `task`, `left_execution`, `arrival`. -/
structure Job where
  task : RMTask
  left_execution : ℤ
  arrival : ℤ
deriving DecidableEq

/-- Source `Job.__init__` (src/job.py:31-34): `left_execution` starts at
`task.computation`. -/
def Job.ofTask (t : RMTask) (arrival : ℤ) : Job := ⟨t, t.computation, arrival⟩

/-- Source `Job.pk` (src/job.py:36-44) formats the identifying pair as the string
`'{task.pk} | {arrival}'`; with integer task ids that formatting is injective,
so we keep the pair itself. -/
def Job.pkPair (j : Job) : ℤ × ℤ := (j.task.pk, j.arrival)

/-- Source `Job.deadline` (src/job.py:46-54): `arrival + task.period`. -/
def Job.deadline (j : Job) : ℤ := j.arrival + j.task.period

/-- Source `Job.compute` (src/job.py:56-70): a no-op when already done, otherwise
`left_execution -= exec_time` — the subtraction is NOT clamped at zero even
though the simulated sleep uses `min(left_execution, exec_time)`. -/
def Job.compute (j : Job) (exec_time : ℤ) : Job :=
  if j.left_execution ≤ 0 then j
  else { j with left_execution := j.left_execution - exec_time }

/-- Source `Job.is_done` (src/job.py:72-73): `left_execution <= 0`. -/
def Job.is_done (j : Job) : Bool := j.left_execution ≤ 0

/-- Modelled from the spec: the static descriptor of §3 for the EDF stack.
The `Job` class that `Scheduler.__create_jobs` (src/scheduler.py:73-81)
constructs with `Job(pk=…, computation=…, deadline=…, period=…)` is not
present under src/ (the class in src/job.py has a different constructor);
fields are taken from that constructor call.  `deadline` here is the relative
deadline. -/
structure EDFJob where
  pk : ℤ
  computation : ℤ
  deadline : ℤ
  period : ℤ
deriving DecidableEq

/-- Modelled from the spec: derived utilization `computation / period` (§3);
`job.utility` is read by `EDFScheduler.get_total_utility` and
`EDFScheduler.get_l_star` (src/scheduler.py:123-156). -/
def EDFJob.utility (j : EDFJob) : ℚ := (j.computation : ℚ) / (j.period : ℚ)

/-- One released instance on the EDF side: class `Task` in src/task.py with
fields `job`, `left_execution`, `arrival` (its `job` is the EDF descriptor
above). -/
structure ETask where
  job : EDFJob
  left_execution : ℤ
  arrival : ℤ
deriving DecidableEq

/-- Source `Task.__init__` (src/task.py:31-34): `left_execution` starts at
`job.computation`. -/
def ETask.ofJob (j : EDFJob) (arrival : ℤ) : ETask := ⟨j, j.computation, arrival⟩

/-- Source `Task.deadline` (src/task.py:46-54): `arrival + job.deadline`. -/
def ETask.deadline (t : ETask) : ℤ := t.arrival + t.job.deadline

/-- Source `Task.compute` (src/task.py:56-73): a no-op when already done, otherwise
`left_execution -= exec_time`, again unclamped (the branch on
`left_execution < exec_time` only affects the simulated sleep). -/
def ETask.compute (t : ETask) (exec_time : ℤ) : ETask :=
  if t.left_execution ≤ 0 then t
  else { t with left_execution := t.left_execution - exec_time }

/-- Source `Task.is_done` (src/task.py:75-82): `left_execution <= 0`. -/
def ETask.is_done (t : ETask) : Bool := t.left_execution ≤ 0

/-- Source `BaseScheduler.get_hyper_period` (src/scheduler/base.py:60-67):
`math.lcm(*[task.period for task in self.tasks])`.  Python's `math.lcm` with
no arguments returns 1 and always returns a non-negative integer. -/
def getHyperPeriod (tasks : List RMTask) : ℤ :=
  tasks.foldr (fun t acc => (Int.lcm t.period acc : ℤ)) 1

/-- Source `BaseScheduler.__create_jobs` (src/scheduler/base.py:42-58): for each task,
`n = hyper_period // task.period` instances with arrivals `task.period * i`
for `i in range(n)`.  The source accumulates them into a Python `set`; the
list here records the generation order.  This is the value of the generator
on its non-failing path: the division at base.py:52 raises
`ZeroDivisionError` when a task's period is zero (the hyperperiod is then 0
as well), and that error path is modelled by `createJobsE` below. -/
def createJobs (tasks : List RMTask) : List Job :=
  tasks.flatMap fun t =>
    (List.range ((getHyperPeriod tasks).fdiv t.period).toNat).map
      fun (i : ℕ) => Job.ofTask t (t.period * (i : ℤ))

/-- Python integer floor division `a // b`: raises `ZeroDivisionError` when
the divisor is zero, otherwise floors the exact quotient. -/
def pyFloorDiv (a b : ℤ) : Except Unit ℤ :=
  if b = 0 then .error () else .ok (a.fdiv b)

/-- The `for task in self.tasks` loop of `BaseScheduler.__create_jobs`
(src/scheduler/base.py:49-57) with the error path of
`n = hyper_period // task.period`: a zero-period task raises
`ZeroDivisionError` (aborting the whole generation); otherwise the task
contributes instances with arrivals `task.period * i` for `i in range(n)`. -/
def createJobsLoop (H : ℤ) : List RMTask → Except Unit (List Job)
  | [] => .ok []
  | t :: ts =>
    match pyFloorDiv H t.period with
    | .error e => .error e
    | .ok n =>
      match createJobsLoop H ts with
      | .error e => .error e
      | .ok rest => .ok ((List.range n.toNat).map
          (fun (i : ℕ) => Job.ofTask t (t.period * (i : ℤ))) ++ rest)

/-- Source `BaseScheduler.__create_jobs` (src/scheduler/base.py:42-58)
including its failure path: the propagated `ZeroDivisionError` (a bare error
value, like the division that raises it) when some task's period is zero,
and otherwise exactly the `createJobs` value. -/
def createJobsE (tasks : List RMTask) : Except Unit (List Job) :=
  createJobsLoop (getHyperPeriod tasks) tasks

/-- Source `Scheduler.get_hyper_period` (src/scheduler.py:53-60), EDF stack. -/
def edfHyperPeriod (jobs : List EDFJob) : ℤ :=
  jobs.foldr (fun j acc => (Int.lcm j.period acc : ℤ)) 1

/-- Source `Scheduler.__create_tasks` (src/scheduler.py:37-51): the EDF-side instance
generator, same shape as `BaseScheduler.__create_jobs`. -/
def createETasks (jobs : List EDFJob) : List ETask :=
  jobs.flatMap fun j =>
    (List.range ((edfHyperPeriod jobs).fdiv j.period).toNat).map
      fun (i : ℕ) => ETask.ofJob j (j.period * (i : ℤ))

/-- Source `RMScheduler.utilization_lub` (src/scheduler/rm_scheduler.py:24-26):
`n * (2 ** (1 / n) - 1)` with real exponentiation. -/
noncomputable def utilization_lub (n : ℕ) : ℝ :=
  (n : ℝ) * ((2 : ℝ) ^ ((1 : ℝ) / (n : ℝ)) - 1)

/-- Python `sum(task.utility for task in self.tasks)` in `RMScheduler.is_feasible`
(src/scheduler/rm_scheduler.py:129), exact over `ℚ`. -/
def totalUtility (tasks : List RMTask) : ℚ := (tasks.map RMTask.utility).sum

open Classical in
/-- Source `RMScheduler.is_feasible` (src/scheduler/rm_scheduler.py:119-140): returns
`True` when the utilization sum is below the bound, `False` when it is ≥ 1,
and otherwise `True` again — the "might be schedulable" case is distinguished
only in a log message, not in the returned value. -/
noncomputable def rmIsFeasible (tasks : List RMTask) : Bool :=
  if (totalUtility tasks : ℝ) < utilization_lub tasks.length then true
  else if 1 ≤ totalUtility tasks then false
  else true

/-- The arrived-job scan of `RMScheduler.get_job`
(src/scheduler/rm_scheduler.py:43-47): walk the queue in order, stop at the
first job with `arrival > now`; every job collected satisfies
`arrival ≤ now`. -/
def arrivedJobs (queue : List Job) (now : ℤ) : List Job :=
  queue.takeWhile fun j => decide (j.arrival ≤ now)

/-- Stable insertion: `x` is placed before the first element that is not
strictly below it, so elements with equal keys keep their relative order. -/
def insertByLt {α : Type} (lt : α → α → Bool) (x : α) : List α → List α
  | [] => [x]
  | y :: ys => if lt y x then y :: insertByLt lt x ys else x :: y :: ys

/-- Stable insertion sort modelling Python's stable `list.sort(key=…)` /
`sorted(…, key=…)`. -/
def pySortBy {α : Type} (key : α → ℤ) (l : List α) : List α :=
  l.foldr (insertByLt fun a b => decide (key a < key b)) []

instance {ε α : Type} [DecidableEq ε] [DecidableEq α] : DecidableEq (Except ε α) := fun
  | .error a, .error b =>
    if h : a = b then .isTrue (by rw [h]) else .isFalse (by simp [h])
  | .error _, .ok _ => .isFalse (by simp)
  | .ok _, .error _ => .isFalse (by simp)
  | .ok a, .ok b =>
    if h : a = b then .isTrue (by rw [h]) else .isFalse (by simp [h])

/-- Source `RMScheduler.get_job` (src/scheduler/rm_scheduler.py:28-57): collect the
arrived prefix; raise a bare `ValueError` — an error value carrying no job id,
clock or deadline — if any arrived job is past its deadline and unfinished;
otherwise stable-sort the arrived jobs by task period
(`arrived_jobs.sort(key=lambda _: _.task.period)`) and pop the head
(`None` when empty). -/
def rmGetJob (queue : List Job) (now : ℤ) : Except Unit (Option Job) :=
  let arrived := arrivedJobs queue now
  if arrived.any (fun j => decide (j.deadline < now) && !j.is_done) then .error ()
  else .ok (pySortBy (fun j => j.task.period) arrived).head?

/-- Python's `min` over a list of integers (raises on an empty list, which the
callers below never pass; the `[]` case is junk). -/
def intListMin : List ℤ → ℤ
  | [] => 0
  | x :: xs => xs.foldl min x

/-- Python `min([t.arrival for t in queue])` used by the idle branches. -/
def minArrival (queue : List Job) : ℤ := intListMin (queue.map Job.arrival)

/-- Source `RMScheduler.idle_cpu_until_next_job_arrives`
(src/scheduler/rm_scheduler.py:59-76): advance `now` by
`min(arrivals) - now`. -/
def idleUntilNextJob (queue : List Job) (now : ℤ) : ℤ :=
  now + (minArrival queue - now)

/-- Python's `min(list, key=key)`: the first element attaining the minimal
key, `None` on the empty list. -/
def pyMinBy {α : Type} (key : α → ℤ) : List α → Option α
  | [] => none
  | x :: xs => some (xs.foldl (fun m y => if key y < key m then y else m) x)

/-- Source `RMScheduler.get_job_exec_time` (src/scheduler/rm_scheduler.py:78-100):
collect every queued job with `arrival < job.deadline`, strictly smaller task
period, and work left; if any, the slice is
`min(first-minimal-arrival - now, job.left_execution)`, otherwise the full
`left_execution`. -/
def rmGetJobExecTime (queue : List Job) (job : Job) (now : ℤ) : ℤ :=
  let hp := queue.filter fun j =>
    decide (j.arrival < job.deadline) && decide (j.task.period < job.task.period)
      && !j.is_done
  match pyMinBy Job.arrival hp with
  | none => job.left_execution
  | some nextJob => min (nextJob.arrival - now) job.left_execution

/-- One iteration of the `while queue:` body of `RMScheduler.schedule`
(src/scheduler/rm_scheduler.py:155-171): select, or idle; on selection remove
the job, run it for the computed slice, and re-insert (then re-sort by
arrival) when work remains.  The optional component is the
`(task pk, job arrival, start, length)` trace entry of the dispatch. -/
def rmStep (queue : List Job) (now : ℤ) :
    Except Unit (List Job × ℤ × Option (ℤ × ℤ × ℤ × ℤ)) :=
  match rmGetJob queue now with
  | .error _ => .error ()
  | .ok none => .ok (queue, idleUntilNextJob queue now, none)
  | .ok (some job) =>
    let q := queue.erase job
    let e := rmGetJobExecTime q job now
    let j := job.compute e
    let q' := if 0 < j.left_execution then pySortBy Job.arrival (q ++ [j]) else q
    .ok (q', now + e, some (job.task.pk, job.arrival, now, e))

/-- Outcome of running a dispatch loop to completion: the ordered execution
trace, the RM stack's propagated `ValueError`, or fuel exhaustion (the Python
loops are unbounded `while` loops; fuel is explicit here). -/
inductive RunResult where
  | ok (trace : List (ℤ × ℤ × ℤ × ℤ))
  | err
  | fuelOut
deriving DecidableEq

/-- Whether a run produced a complete trace. -/
def RunResult.isOk : RunResult → Bool
  | .ok _ => true
  | _ => false

/-- The `while queue:` loop of `RMScheduler.schedule`
(src/scheduler/rm_scheduler.py:153-172), accumulating the execution trace. -/
def rmLoop : ℕ → List Job → ℤ → List (ℤ × ℤ × ℤ × ℤ) → RunResult
  | 0, _, _, _ => .fuelOut
  | _ + 1, [], _, acc => .ok acc.reverse
  | fuel + 1, q, now, acc =>
    match rmStep q now with
    | .error _ => .err
    | .ok (q', now', none) => rmLoop fuel q' now' acc
    | .ok (q', now', some s) => rmLoop fuel q' now' (s :: acc)

/-- Source `EDFScheduler.demand_bound_function` (src/scheduler.py:108-121): one
accumulation per task descriptor of
`computation * math.floor((t + period - deadline) / period)`.  `math.floor`
of the exact quotient is floor division `Int.fdiv`; there is NO clamping of
the floor term at 0. -/
def demand_bound_function (jobs : List EDFJob) (t : ℤ) : ℤ :=
  jobs.foldl
    (fun acc j => acc + j.computation * ((t + j.period - j.deadline).fdiv j.period)) 0

/-- Source `EDFScheduler.get_total_utility` (src/scheduler.py:123-130). -/
def get_total_utility (jobs : List EDFJob) : ℚ := (jobs.map EDFJob.utility).sum

/-- Python `max([task.deadline for task in self.tasks])` in
`EDFScheduler.get_max_deadline` (src/scheduler.py:132-139); callers pass a
non-empty instance list, `[]` is junk. -/
def maxETaskDeadline : List ETask → ℤ
  | [] => 0
  | t :: ts => ts.foldl (fun m x => max m x.deadline) t.deadline

/-- Source `EDFScheduler.get_l_star` (src/scheduler.py:141-156): raises `ValueError`
when some descriptor has utility above 1, otherwise
`Σ (period - deadline) * utility / Σ utility`. -/
def get_l_star (jobs : List EDFJob) : Except Unit ℚ :=
  if jobs.any (fun j => decide (1 < j.utility)) then .error ()
  else .ok ((jobs.map fun j => ((j.period - j.deadline : ℤ) : ℚ) * j.utility).sum
    / get_total_utility jobs)

/-- Source `EDFScheduler.is_feasible` (src/scheduler.py:158-183): `False` when
`get_l_star` raises; otherwise check `demand_bound_function t ≤ t` at every
instance deadline `t ≤ min(hyperperiod, max(L*, max deadline))`, sorted. -/
def edfIsFeasible (jobs : List EDFJob) : Bool :=
  match get_l_star jobs with
  | .error _ => false
  | .ok lstar =>
    let tasks := createETasks jobs
    let maxD : ℚ := min (edfHyperPeriod jobs : ℚ)
      (max lstar (maxETaskDeadline tasks : ℚ))
    let ds := pySortBy (fun d => d)
      ((tasks.filter fun t => decide ((t.deadline : ℚ) ≤ maxD)).map ETask.deadline)
    ds.all fun t => decide (demand_bound_function jobs t ≤ t)

/-- Source `EDFScheduler.__get_task` (src/scheduler.py:286-304): first task in queue
order with `arrival ≤ now`; no deadline check of any kind. -/
def edfGetTask (queue : List ETask) (now : ℤ) : Option ETask :=
  queue.find? fun t => decide (t.arrival ≤ now)

/-- Python `min([t.arrival for t in queue])` on the EDF side. -/
def minETaskArrival (queue : List ETask) : ℤ := intListMin (queue.map ETask.arrival)

/-- Source `EDFScheduler.__idle_cpu_task_arrives` (src/scheduler.py:267-284). -/
def edfIdle (queue : List ETask) (now : ℤ) : ℤ :=
  now + (minETaskArrival queue - now)

/-- Source `EDFScheduler.get_task_exec_time` (src/scheduler.py:224-248): scan the
queue in order collecting tasks with strictly earlier deadline, stopping at
the first that is not earlier (`else: break`); the slice is
`min(first-minimal-arrival - now, task.left_execution)` when any were
collected, else the full `left_execution`. -/
def get_task_exec_time (queue : List ETask) (task : ETask) (now : ℤ) : ℤ :=
  let hp := queue.takeWhile fun t => decide (t.deadline < task.deadline)
  match pyMinBy ETask.arrival hp with
  | none => task.left_execution
  | some nxt => min (nxt.arrival - now) task.left_execution

/-- One iteration of the `while queue:` body of `EDFScheduler.schedule`
(src/scheduler.py:197-222).  There is no deadline-miss branch: the body
always produces a successor state. -/
def edfStep (queue : List ETask) (now : ℤ) :
    List ETask × ℤ × Option (ℤ × ℤ × ℤ × ℤ) :=
  match edfGetTask queue now with
  | none => (queue, edfIdle queue now, none)
  | some task =>
    let q := queue.erase task
    let e := get_task_exec_time q task now
    let t' := task.compute e
    if q.isEmpty then (q, now + e, some (task.job.pk, task.arrival, now, e))
    else
      let q' := if 0 < t'.left_execution then pySortBy ETask.deadline (q ++ [t']) else q
      (q', now + e, some (task.job.pk, task.arrival, now, e))

/-- The `while queue:` loop of `EDFScheduler.schedule`
(src/scheduler.py:197-222) with fuel, also recording every loop-entry state
`(queue, now)` so that runtime conditions can be stated about the states the
simulator actually observes. -/
def edfLoop : ℕ → List ETask → ℤ → List (ℤ × ℤ × ℤ × ℤ) →
    List (List ETask × ℤ) → List (List ETask × ℤ) × RunResult
  | 0, _, _, _, states => (states.reverse, .fuelOut)
  | _ + 1, [], _, acc, states => (states.reverse, .ok acc.reverse)
  | fuel + 1, q, now, acc, states =>
    match edfStep q now with
    | (q', now', none) => edfLoop fuel q' now' acc ((q, now) :: states)
    | (q', now', some s) => edfLoop fuel q' now' (s :: acc) ((q, now) :: states)

/-- A loop-entry state in which some arrived task is past its absolute
deadline with work remaining — the condition under which the spec requires an
immediate failure. -/
def hasOverdueArrived (st : List ETask × ℤ) : Bool :=
  st.1.any fun t =>
    decide (t.arrival ≤ st.2) && decide (t.deadline < st.2)
      && decide (0 < t.left_execution)

/-- Modelled from the spec: the demand bound function exactly as claim C2
states it — per-task sum of `computation * max(0, floor((t + period -
deadline) / period))`, for comparison with `demand_bound_function`. -/
def claimDbf (jobs : List EDFJob) (t : ℤ) : ℤ :=
  (jobs.map fun j =>
    j.computation * max 0 ((t + j.period - j.deadline).fdiv j.period)).sum

/-- Modelled from the spec: the RM slice length exactly as claim C7 states
it — the preempting candidate must have strictly higher priority (smaller
period) AND an absolute deadline earlier than the selected job's own
deadline, for comparison with `rmGetJobExecTime`. -/
def claimSliceRM (queue : List Job) (job : Job) (now : ℤ) : ℤ :=
  let hp := queue.filter fun j =>
    decide (j.task.period < job.task.period) && decide (j.deadline < job.deadline)
      && !j.is_done
  if hp.isEmpty then job.left_execution
  else min (minArrival hp - now) job.left_execution

/-- Modelled from the spec: the EDF slice length as claim C7 states it —
under EDF, higher priority and earlier deadline coincide. -/
def claimSliceEDF (queue : List ETask) (task : ETask) (now : ℤ) : ℤ :=
  let hp := queue.filter fun t => decide (t.deadline < task.deadline)
  if hp.isEmpty then task.left_execution
  else min (minETaskArrival hp - now) task.left_execution

/-! ### Helper lemmas about the list combinators used by the embedding -/

theorem foldlAddSum {α : Type} (f : α → ℤ) (l : List α) (a : ℤ) :
    l.foldl (fun acc x => acc + f x) a = a + (l.map f).sum := by
  induction l generalizing a with
  | nil => simp
  | cons x xs ih => simp [ih, add_assoc]

theorem intListMin_gt (c : ℤ) (l : List ℤ) (hne : l ≠ []) (h : ∀ x ∈ l, c < x) :
    c < intListMin l := by
  match l with
  | [] => exact absurd rfl hne
  | x :: xs =>
    have aux : ∀ (ys : List ℤ) (a : ℤ), c < a → (∀ y ∈ ys, c < y) →
        c < ys.foldl min a := by
      intro ys
      induction ys with
      | nil => intro a ha _; simpa using ha
      | cons y ys ih =>
        intro a ha hy
        simp only [List.foldl_cons]
        exact ih _ (lt_min ha (hy y (by simp))) fun z hz => hy z (by simp [hz])
    exact aux xs x (h x (by simp)) fun z hz => h z (by simp [hz])

theorem pyMinBy_eq_none {α : Type} (key : α → ℤ) (l : List α) :
    pyMinBy key l = none ↔ l = [] := by
  cases l <;> simp [pyMinBy]

theorem pyMinBy_spec {α : Type} (key : α → ℤ) (l : List α) (m : α)
    (h : pyMinBy key l = some m) : m ∈ l ∧ key m = intListMin (l.map key) := by
  match l with
  | [] => simp [pyMinBy] at h
  | x :: xs =>
    have aux : ∀ (ys : List α) (a : α),
        (ys.foldl (fun m y => if key y < key m then y else m) a) ∈ a :: ys
        ∧ key (ys.foldl (fun m y => if key y < key m then y else m) a)
            = (ys.map key).foldl min (key a) := by
      intro ys
      induction ys with
      | nil => intro a; simp
      | cons y ys ih =>
        intro a
        simp only [List.foldl_cons, List.map_cons]
        have hstep : key (if key y < key a then y else a) = min (key a) (key y) := by
          by_cases hc : key y < key a
          · simp [hc, min_eq_right (le_of_lt hc)]
          · simp [hc, min_eq_left (le_of_not_lt hc)]
        refine ⟨?_, ?_⟩
        · have hmem := (ih (if key y < key a then y else a)).1
          by_cases hc : key y < key a <;> simp [hc] at hmem ⊢ <;> tauto
        · rw [(ih (if key y < key a then y else a)).2, hstep]
    simp only [pyMinBy, Option.some.injEq] at h
    subst h
    exact ⟨(aux xs x).1, by rw [(aux xs x).2]; rfl⟩

theorem insertByLt_perm {α : Type} (lt : α → α → Bool) (x : α) (l : List α) :
    (insertByLt lt x l).Perm (x :: l) := by
  induction l with
  | nil => simp [insertByLt]
  | cons y ys ih =>
    unfold insertByLt
    by_cases h : lt y x
    · simp only [h, if_true]
      exact (ih.cons y).trans (List.Perm.swap x y ys)
    · simp [h]

theorem pySortBy_perm {α : Type} (key : α → ℤ) (l : List α) :
    (pySortBy key l).Perm l := by
  induction l with
  | nil => simp [pySortBy]
  | cons x xs ih =>
    unfold pySortBy at ih ⊢
    simp only [List.foldr_cons]
    exact (insertByLt_perm _ x _).trans (ih.cons x)

theorem insertByLt_pairwise {α : Type} (key : α → ℤ) (x : α) (l : List α)
    (h : l.Pairwise fun a b => key a ≤ key b) :
    (insertByLt (fun a b => decide (key a < key b)) x l).Pairwise
      fun a b => key a ≤ key b := by
  induction l with
  | nil => simp [insertByLt]
  | cons y ys ih =>
    rw [List.pairwise_cons] at h
    unfold insertByLt
    by_cases hc : key y < key x
    · rw [if_pos (decide_eq_true hc)]
      rw [List.pairwise_cons]
      refine ⟨?_, ih h.2⟩
      intro b hb
      rcases List.mem_cons.mp ((insertByLt_perm _ x ys).subset hb) with hbx | hby
      · exact le_of_lt (by rw [hbx]; exact hc)
      · exact h.1 b hby
    · rw [if_neg (by simp only [decide_eq_true_eq]; exact hc)]
      have hxy : key x ≤ key y := le_of_not_lt hc
      rw [List.pairwise_cons]
      refine ⟨fun b hb => ?_, List.pairwise_cons.mpr h⟩
      rcases List.mem_cons.mp hb with hby | hbys
      · rw [hby]; exact hxy
      · exact le_trans hxy (h.1 b hbys)

theorem pySortBy_pairwise {α : Type} (key : α → ℤ) (l : List α) :
    (pySortBy key l).Pairwise fun a b => key a ≤ key b := by
  induction l with
  | nil => simp [pySortBy]
  | cons x xs ih =>
    unfold pySortBy at ih ⊢
    simp only [List.foldr_cons]
    exact insertByLt_pairwise key x _ ih

theorem pySortBy_head_min {α : Type} (key : α → ℤ) (l : List α) (m : α)
    (h : (pySortBy key l).head? = some m) :
    m ∈ l ∧ ∀ x ∈ l, key m ≤ key x := by
  cases hs : pySortBy key l with
  | nil => rw [hs] at h; simp at h
  | cons a rest =>
    rw [hs] at h
    simp only [List.head?_cons, Option.some.injEq] at h
    subst h
    have hperm := pySortBy_perm key l
    rw [hs] at hperm
    have hpw := pySortBy_pairwise key l
    rw [hs, List.pairwise_cons] at hpw
    refine ⟨hperm.subset (by simp), ?_⟩
    intro x hx
    rcases List.mem_cons.mp (hperm.symm.subset hx) with hxa | hxr
    · rw [hxa]
    · exact hpw.1 x hxr

theorem mem_arrivedJobs_of_sorted (now : ℤ) :
    ∀ queue : List Job, (queue.Pairwise fun a b => a.arrival ≤ b.arrival) →
      ∀ j ∈ queue, j.arrival ≤ now → j ∈ arrivedJobs queue now := by
  intro queue
  induction queue with
  | nil => intro _ j hj; cases hj
  | cons a q ih =>
    intro hs j hj hle
    rw [List.pairwise_cons] at hs
    unfold arrivedJobs at ih ⊢
    rcases List.mem_cons.mp hj with rfl | hjq
    · rw [List.takeWhile_cons, if_pos (decide_eq_true hle)]
      exact List.mem_cons_self _ _
    · have ha : a.arrival ≤ now := le_trans (hs.1 j hjq) hle
      rw [List.takeWhile_cons, if_pos (decide_eq_true ha)]
      exact List.mem_cons_of_mem _ (ih hs.2 j hjq hle)

theorem takeWhileLtEqFilter {α : Type} (key : α → ℤ) (D : ℤ) :
    ∀ l : List α, (l.Pairwise fun a b => key a ≤ key b) →
      l.takeWhile (fun t => decide (key t < D)) = l.filter fun t => decide (key t < D) := by
  intro l
  induction l with
  | nil => intro _; rfl
  | cons a q ih =>
    intro hs
    rw [List.pairwise_cons] at hs
    by_cases hc : key a < D
    · rw [List.takeWhile_cons, if_pos (decide_eq_true hc), List.filter_cons,
        if_pos (decide_eq_true hc), ih hs.2]
    · have hq : q.filter (fun t => decide (key t < D)) = [] := by
        rw [List.filter_eq_nil_iff]
        intro x hx
        simp only [decide_eq_true_eq]
        exact fun hlt => hc (lt_of_le_of_lt (hs.1 x hx) hlt)
      rw [List.takeWhile_cons, if_neg (by simp only [decide_eq_true_eq]; exact hc),
        List.filter_cons, if_neg (by simp only [decide_eq_true_eq]; exact hc), hq]

theorem getHyperPeriod_nonneg (tasks : List RMTask) : 0 ≤ getHyperPeriod tasks := by
  cases tasks with
  | nil => norm_num [getHyperPeriod]
  | cons t ts =>
    simp only [getHyperPeriod, List.foldr_cons]
    exact Int.natCast_nonneg _

/-! ### Claim C4: derived absolute deadlines, both instance orientations -/

/-- C4: in both orientations of the instance type, the derived absolute
deadline of a released instance equals `arrival + relative_deadline` of its
descriptor — on the RM side (`Job.deadline`, src/job.py:46-54) the relative
deadline defaults to the period, so it also equals `arrival + period`; on the
EDF side (`Task.deadline`, src/task.py:46-54) it is `arrival + job.deadline`. -/
theorem c4_absolute_deadline :
    (∀ (t : RMTask) (a : ℤ),
      (Job.ofTask t a).deadline = a + t.relative_deadline
        ∧ (Job.ofTask t a).deadline = a + t.period)
    ∧ ∀ (j : EDFJob) (a : ℤ), (ETask.ofJob j a).deadline = a + j.deadline := by
  exact ⟨fun t a => ⟨rfl, rfl⟩, fun j a => rfl⟩

/-! ### Claim C10: evolution of `remaining_execution` under `compute` -/

/-- C10 (amended): `left_execution` starts at the descriptor's computation and
never increases under `compute` with a non-negative slice, and an instance is
reported done iff `left_execution ≤ 0` — not iff it equals 0: the unclamped
subtraction in `Job.compute` / `Task.compute` can drive it negative. -/
theorem c10_remaining_execution (x : ℤ) (hx : 0 ≤ x) :
    (∀ (t : RMTask) (a : ℤ), (Job.ofTask t a).left_execution = t.computation)
    ∧ (∀ (j : EDFJob) (a : ℤ), (ETask.ofJob j a).left_execution = j.computation)
    ∧ (∀ j : Job, (j.compute x).left_execution ≤ j.left_execution)
    ∧ (∀ s : ETask, (s.compute x).left_execution ≤ s.left_execution)
    ∧ (∀ j : Job, j.is_done = true ↔ j.left_execution ≤ 0)
    ∧ (∀ s : ETask, s.is_done = true ↔ s.left_execution ≤ 0) := by
  refine ⟨fun _ _ => rfl, fun _ _ => rfl, fun j => ?_, fun s => ?_,
    fun j => by simp [Job.is_done], fun s => by simp [ETask.is_done]⟩
  · unfold Job.compute
    split_ifs with h
    · exact le_refl _
    · exact sub_le_self _ hx
  · unfold ETask.compute
    split_ifs with h
    · exact le_refl _
    · exact sub_le_self _ hx

/-- C10 counterexample: invoking `compute` with a slice larger than the
remaining work drives `left_execution` negative (here to `-4`), and the job
is then reported done with `left_execution ≠ 0` — refuting "never becomes
negative" and "done iff remaining_execution == 0". -/
theorem c10_counterexample :
    ((Job.ofTask ⟨1, 1, 2⟩ 0).compute 5).left_execution = -4
    ∧ ((Job.ofTask ⟨1, 1, 2⟩ 0).compute 5).is_done = true
    ∧ ((ETask.ofJob ⟨1, 1, 2, 2⟩ 0).compute 5).left_execution = -4
    ∧ ((ETask.ofJob ⟨1, 1, 2, 2⟩ 0).compute 5).is_done = true := by
  refine ⟨by decide, by decide, by decide, by decide⟩

/-- C10 witness: the amended theorem applied at slice length 3. -/
theorem c10_witness :
    (0 : ℤ) ≤ 3
    ∧ ((Job.ofTask ⟨1, 4, 5⟩ 0).compute 3).left_execution
        ≤ (Job.ofTask ⟨1, 4, 5⟩ 0).left_execution :=
  ⟨by decide, (c10_remaining_execution 3 (by decide)).2.2.1 _⟩

/-! ### Claim C2: the EDF demand bound function -/

/-- C2 (amended): `demand_bound_function` is the per-descriptor sum — one
summand per task, not per expanded instance — of
`computation * floor((t + period - deadline)/period)` WITHOUT the claimed
`max(0, ·)` clamp; the clamped form of the claim coincides with it only under
the extra assumptions that `t ≥ 0` and every relative deadline is at most its
period (then the floor term is already non-negative). -/
theorem c2_dbf_characterization :
    (∀ (jobs : List EDFJob) (t : ℤ),
      demand_bound_function jobs t =
        (jobs.map fun j =>
          j.computation * ((t + j.period - j.deadline).fdiv j.period)).sum)
    ∧ ∀ (jobs : List EDFJob) (t : ℤ), 0 ≤ t →
        (∀ j ∈ jobs, 0 < j.period ∧ j.deadline ≤ j.period) →
        demand_bound_function jobs t = claimDbf jobs t := by
  have hfold : ∀ (jobs : List EDFJob) (t : ℤ),
      demand_bound_function jobs t =
        (jobs.map fun j =>
          j.computation * ((t + j.period - j.deadline).fdiv j.period)).sum := by
    intro jobs t
    unfold demand_bound_function
    rw [foldlAddSum (fun (j : EDFJob) =>
      j.computation * ((t + j.period - j.deadline).fdiv j.period)) jobs 0]
    ring
  refine ⟨hfold, ?_⟩
  intro jobs t ht hjobs
  rw [hfold]
  unfold claimDbf
  congr 1
  apply List.map_congr_left
  intro j hj
  have hnum : 0 ≤ t + j.period - j.deadline := by
    have := (hjobs j hj).2
    omega
  have hfd : 0 ≤ (t + j.period - j.deadline).fdiv j.period :=
    Int.fdiv_nonneg hnum (le_of_lt (hjobs j hj).1)
  rw [max_eq_right hfd]

/-- C2 counterexample: for a descriptor whose relative deadline exceeds its
period (`computation 1, deadline 5, period 2`) the code's unclamped floor
gives a NEGATIVE contribution at `t = 0`: the function returns `-2` where the
claim requires the task to contribute exactly 0. -/
theorem c2_counterexample :
    demand_bound_function [⟨1, 1, 5, 2⟩] 0 = -2
    ∧ claimDbf [⟨1, 1, 5, 2⟩] 0 = 0
    ∧ demand_bound_function [⟨1, 1, 5, 2⟩] 0 ≠ claimDbf [⟨1, 1, 5, 2⟩] 0 := by
  refine ⟨by decide, by decide, by decide⟩

/-- C2 witness: the amended theorem applied to a concrete implicit-deadline
descriptor at `t = 2`. -/
theorem c2_witness :
    ((0 : ℤ) ≤ 2 ∧ ∀ j ∈ [(⟨1, 1, 2, 2⟩ : EDFJob)], 0 < j.period ∧ j.deadline ≤ j.period)
    ∧ demand_bound_function [⟨1, 1, 2, 2⟩] 2 = claimDbf [⟨1, 1, 2, 2⟩] 2 :=
  ⟨⟨by decide, by decide⟩, c2_dbf_characterization.2 _ 2 (by decide) (by decide)⟩

/-! ### Claim C6: behaviour of job-set generation on degenerate inputs -/

theorem createJobsLoop_ok (H : ℤ) :
    ∀ ts : List RMTask, (∀ t ∈ ts, t.period ≠ 0) →
      createJobsLoop H ts = .ok (ts.flatMap fun t =>
        (List.range (H.fdiv t.period).toNat).map
          fun (i : ℕ) => Job.ofTask t (t.period * (i : ℤ))) := by
  intro ts
  induction ts with
  | nil => intro _; rfl
  | cons t ts ih =>
    intro h
    unfold createJobsLoop pyFloorDiv
    rw [if_neg (h t (by simp))]
    rw [ih fun x hx => h x (by simp [hx])]
    simp [List.flatMap_cons]

theorem createJobsLoop_err (H : ℤ) :
    ∀ ts : List RMTask, (∃ t ∈ ts, t.period = 0) →
      createJobsLoop H ts = .error () := by
  intro ts
  induction ts with
  | nil => rintro ⟨t, ht, _⟩; cases ht
  | cons t ts ih =>
    rintro ⟨x, hx, hxp⟩
    unfold createJobsLoop pyFloorDiv
    by_cases hz : t.period = 0
    · rw [if_pos hz]
    · rw [if_neg hz]
      rcases List.mem_cons.mp hx with rfl | hxt
      · exact absurd hxp hz
      · rw [ih ⟨x, hxt, hxp⟩]

/-- C6 (amended): generation does fail on a zero period — `hyper_period //
task.period` raises `ZeroDivisionError` at base.py:52, an unintentional crash
rather than a purposeful configuration error — but it does NOT fail on the
other inputs the claim names: on the empty task set `math.lcm()` makes the
hyperperiod 1 and the result is silently the empty job set, and on a negative
period the division succeeds and the task silently contributes no instances
(every instance actually generated stems from a task with positive
period). -/
theorem c6_generation_behavior :
    (getHyperPeriod [] = 1 ∧ createJobsE [] = .ok [])
    ∧ (∀ tasks : List RMTask, (∃ t ∈ tasks, t.period = 0) →
        createJobsE tasks = .error ())
    ∧ (∀ tasks : List RMTask, (∀ t ∈ tasks, t.period ≠ 0) →
        createJobsE tasks = .ok (createJobs tasks))
    ∧ ∀ (tasks : List RMTask) (j : Job), j ∈ createJobs tasks → 0 < j.task.period := by
  refine ⟨⟨rfl, rfl⟩, ?_, ?_, ?_⟩
  · intro tasks h
    exact createJobsLoop_err (getHyperPeriod tasks) tasks h
  · intro tasks h
    exact createJobsLoop_ok (getHyperPeriod tasks) tasks h
  · intro tasks j hj
    unfold createJobs at hj
    obtain ⟨t, ht, hj⟩ := List.mem_flatMap.mp hj
    obtain ⟨i, hi, rfl⟩ := List.mem_map.mp hj
    have hn : 0 < ((getHyperPeriod tasks).fdiv t.period).toNat :=
      Nat.pos_of_ne_zero fun h => by simp [h] at hi
    have hfd : 0 < (getHyperPeriod tasks).fdiv t.period := by omega
    show 0 < t.period
    by_contra hp
    push_neg at hp
    rcases lt_or_eq_of_le hp with hlt | heq
    · have := Int.fdiv_nonpos (getHyperPeriod_nonneg tasks) (le_of_lt hlt)
      omega
    · rw [heq] at hfd
      rw [Int.fdiv_zero] at hfd
      omega

/-- C6 counterexample: generation does not fail on the empty task set
(hyperperiod 1, empty job set, silently) nor on a negative period (the task
silently contributes no instances) — contradicting the claim that both are
configuration errors; only a zero period aborts generation, and then with a
bare `ZeroDivisionError`, not a diagnosed configuration error. -/
theorem c6_counterexample :
    getHyperPeriod [] = 1 ∧ createJobsE [] = .ok []
    ∧ createJobsE [⟨1, 1, 2⟩, ⟨2, 1, -3⟩] =
        .ok [Job.ofTask ⟨1, 1, 2⟩ 0, Job.ofTask ⟨1, 1, 2⟩ 2, Job.ofTask ⟨1, 1, 2⟩ 4]
    ∧ createJobsE [⟨1, 1, 0⟩] = .error () := by
  refine ⟨by decide, by decide, by decide, by decide⟩

/-- C6 witness: the amended theorem applied to a zero-period singleton (the
failing case) and to a well-formed singleton (the succeeding case). -/
theorem c6_witness :
    ((∃ t ∈ [(⟨1, 1, 0⟩ : RMTask)], t.period = 0)
      ∧ createJobsE [⟨1, 1, 0⟩] = .error ())
    ∧ ((∀ t ∈ [(⟨1, 1, 2⟩ : RMTask)], t.period ≠ 0)
      ∧ createJobsE [⟨1, 1, 2⟩] = .ok (createJobs [⟨1, 1, 2⟩])) :=
  ⟨⟨by decide, c6_generation_behavior.2.1 [⟨1, 1, 0⟩] (by decide)⟩,
    ⟨by decide, c6_generation_behavior.2.2.1 [⟨1, 1, 2⟩] (by decide)⟩⟩

/-! ### Claim C3: runtime deadline-miss handling -/

/-- C3 (amended): on the RM side, whenever some job in the arrived prefix of
the queue is past its absolute deadline with work remaining, `get_job` raises
immediately — but the raised `ValueError` carries no payload (no job id, no
clock, no deadline).  The EDF dispatch loop performs no such check at all
(see the counterexample). -/
theorem c3_rm_miss_raises (queue : List Job) (now : ℤ)
    (h : ∃ j ∈ arrivedJobs queue now, j.deadline < now ∧ j.is_done = false) :
    rmGetJob queue now = .error () := by
  obtain ⟨j, hj, hd, hdone⟩ := h
  have hany : (arrivedJobs queue now).any
      (fun j => decide (j.deadline < now) && !j.is_done) = true :=
    List.any_eq_true.mpr ⟨j, hj, by simp [hd, hdone]⟩
  unfold rmGetJob
  simp only [hany, if_true]

/-- C3 witness: a queue holding one arrived, overdue, unfinished job makes
`get_job` raise. -/
theorem c3_witness :
    ((⟨⟨1, 1, 2⟩, 1, 0⟩ : Job) ∈ arrivedJobs [⟨⟨1, 1, 2⟩, 1, 0⟩] 5
      ∧ (⟨⟨1, 1, 2⟩, 1, 0⟩ : Job).deadline < 5
      ∧ (⟨⟨1, 1, 2⟩, 1, 0⟩ : Job).is_done = false)
    ∧ rmGetJob [⟨⟨1, 1, 2⟩, 1, 0⟩] 5 = .error () :=
  ⟨⟨by decide, by decide, by decide⟩,
    c3_rm_miss_raises [⟨⟨1, 1, 2⟩, 1, 0⟩] 5
      ⟨⟨⟨1, 1, 2⟩, 1, 0⟩, by decide, by decide, by decide⟩⟩

theorem c3_lstar_eval : get_l_star [⟨1, 5, 7, 6⟩, ⟨2, 5, 8, 6⟩, ⟨3, 5, 9, 6⟩] = .ok (-2 : ℚ) := by
  unfold get_l_star
  rw [if_neg]
  · congr 1
    simp [get_total_utility, EDFJob.utility]
    norm_num
  · simp [EDFJob.utility]
    norm_num

theorem c3_feasible_eval : edfIsFeasible [⟨1, 5, 7, 6⟩, ⟨2, 5, 8, 6⟩, ⟨3, 5, 9, 6⟩] = true := by
  unfold edfIsFeasible
  rw [c3_lstar_eval]
  show (pySortBy _ ((List.filter _ (createETasks _)).map _)).all _ = true
  rw [show createETasks [⟨1, 5, 7, 6⟩, ⟨2, 5, 8, 6⟩, ⟨3, 5, 9, 6⟩] =
    [ETask.ofJob ⟨1, 5, 7, 6⟩ 0, ETask.ofJob ⟨2, 5, 8, 6⟩ 0, ETask.ofJob ⟨3, 5, 9, 6⟩ 0]
    from by decide]
  rw [show edfHyperPeriod [⟨1, 5, 7, 6⟩, ⟨2, 5, 8, 6⟩, ⟨3, 5, 9, 6⟩] = 6 from by decide]
  rw [show maxETaskDeadline [ETask.ofJob ⟨1, 5, 7, 6⟩ 0, ETask.ofJob ⟨2, 5, 8, 6⟩ 0,
    ETask.ofJob ⟨3, 5, 9, 6⟩ 0] = 9 from by decide]
  norm_num [ETask.deadline, ETask.ofJob, pySortBy]

/-- C3 counterexample: the task set `{(c=5,p=6,d=7), (c=5,p=6,d=8),
(c=5,p=6,d=9)}` passes `EDFScheduler.is_feasible` (its instance deadlines all
exceed the hyperperiod 6, so the demand check has no check points), yet its
total utilization is 5/2: during the EDF dispatch loop the simulator reaches
a state (`now = 10`) in which the third instance has arrived (`arrival = 0`),
is past its deadline (`9 < 10`) and still has all 5 units of work — and the
loop neither fails nor stops: it runs the overdue instance and returns a
complete normal trace.  This refutes "the simulator fails immediately ... it
is never swallowed" for the EDF policy. -/
theorem c3_counterexample :
    edfIsFeasible [⟨1, 5, 7, 6⟩, ⟨2, 5, 8, 6⟩, ⟨3, 5, 9, 6⟩] = true
    ∧ ((edfLoop 10
        (pySortBy ETask.deadline (createETasks [⟨1, 5, 7, 6⟩, ⟨2, 5, 8, 6⟩, ⟨3, 5, 9, 6⟩]))
        0 [] []).1.any hasOverdueArrived) = true
    ∧ ((edfLoop 10
        (pySortBy ETask.deadline (createETasks [⟨1, 5, 7, 6⟩, ⟨2, 5, 8, 6⟩, ⟨3, 5, 9, 6⟩]))
        0 [] []).2) = .ok [(1, 0, 0, 5), (2, 0, 5, 5), (3, 0, 10, 5)] := by
  refine ⟨c3_feasible_eval, by decide, by decide⟩

/-! ### Claim C5: job-set generation over one hyperperiod -/

theorem lcmFoldLeftComm :
    LeftCommutative fun (t : RMTask) (acc : ℤ) => ((Int.lcm t.period acc : ℕ) : ℤ) := by
  constructor
  intro a b c
  simp only [Int.lcm, Int.natAbs_ofNat]
  congr 1
  rw [← Nat.lcm_assoc, Nat.lcm_comm a.period.natAbs b.period.natAbs, Nat.lcm_assoc]

theorem getHyperPeriod_perm {tasks tasks' : List RMTask} (h : tasks.Perm tasks') :
    getHyperPeriod tasks = getHyperPeriod tasks' := by
  unfold getHyperPeriod
  haveI := lcmFoldLeftComm
  exact h.foldr_eq 1

theorem createJobsAuxNodup (H : ℤ) :
    ∀ ts : List RMTask, (∀ t ∈ ts, 0 < t.period) → ((ts.map RMTask.pk).Nodup) →
      ((ts.flatMap fun t => (List.range (H.fdiv t.period).toNat).map
          fun (i : ℕ) => Job.ofTask t (t.period * (i : ℤ))).map Job.pkPair).Nodup := by
  intro ts
  induction ts with
  | nil => intro _ _; simp
  | cons t ts ih =>
    intro hpos hpk
    rw [List.map_cons, List.nodup_cons] at hpk
    simp only [List.flatMap_cons, List.map_append]
    rw [List.nodup_append]
    refine ⟨?_, ih (fun x hx => hpos x (by simp [hx])) hpk.2, ?_⟩
    · rw [List.map_map]
      refine List.Nodup.map ?_ (List.nodup_range _)
      intro i j hij
      simp only [Function.comp, Job.pkPair, Job.ofTask, Prod.mk.injEq] at hij
      have hper : t.period ≠ 0 := ne_of_gt (hpos t (by simp))
      have hcast : (i : ℤ) = j := mul_left_cancel₀ hper hij.2
      exact_mod_cast hcast
    · intro a ha ha'
      rw [List.map_map] at ha
      obtain ⟨i, _, rfl⟩ := List.mem_map.mp ha
      obtain ⟨jb, hjb, hba⟩ := List.mem_map.mp ha'
      obtain ⟨t', ht', hjb'⟩ := List.mem_flatMap.mp hjb
      obtain ⟨k, _, rfl⟩ := List.mem_map.mp hjb'
      apply hpk.1
      rw [List.mem_map]
      refine ⟨t', ht', ?_⟩
      simpa [Job.pkPair, Job.ofTask, Function.comp] using congrArg Prod.fst hba

/-- C5 (amended): for a task set with positive periods and distinct ids,
generation produces exactly the instances `Job(t, t.period * k)` for
`k < hyperperiod // period` (no gaps), with no duplicate `(task.pk, arrival)`
pair, and a permutation of the input task list yields a permutation of the
job collection (as a set/multiset it is iteration-order independent) — but
the produced collection is NOT ordered by arrival: the source stores it in an
unordered Python `set`, and the generation order interleaves tasks (see the
counterexample); ordering by arrival happens only later, inside `schedule`. -/
theorem c5_jobset_generation (tasks tasks' : List RMTask)
    (hpos : ∀ t ∈ tasks, 0 < t.period)
    (hpk : (tasks.map RMTask.pk).Nodup)
    (hperm : tasks.Perm tasks') :
    (∀ j : Job, j ∈ createJobs tasks ↔
      ∃ t ∈ tasks, ∃ k : ℕ, (k : ℤ) < (getHyperPeriod tasks).fdiv t.period
        ∧ j = Job.ofTask t (t.period * (k : ℤ)))
    ∧ ((createJobs tasks).map Job.pkPair).Nodup
    ∧ (createJobs tasks).Perm (createJobs tasks') := by
  refine ⟨?_, ?_, ?_⟩
  · intro j
    unfold createJobs
    rw [List.mem_flatMap]
    constructor
    · rintro ⟨t, ht, hj⟩
      obtain ⟨i, hi, rfl⟩ := List.mem_map.mp hj
      have hilt := List.mem_range.mp hi
      exact ⟨t, ht, i, by omega, rfl⟩
    · rintro ⟨t, ht, k, hk, rfl⟩
      exact ⟨t, ht, List.mem_map.mpr ⟨k, List.mem_range.mpr (by omega), rfl⟩⟩
  · exact createJobsAuxNodup (getHyperPeriod tasks) tasks hpos hpk
  · have hH := getHyperPeriod_perm hperm
    unfold createJobs
    rw [hH]
    exact hperm.flatMap_right _

/-- C5 counterexample: for tasks `(period 2)` then `(period 4)` the generated
collection carries arrivals `[0, 2, 0]` — it is not ordered by arrival (and
the source keeps it in an unordered `set`, so no order is guaranteed at
all). -/
theorem c5_counterexample :
    (createJobs [⟨1, 1, 2⟩, ⟨2, 1, 4⟩]).map Job.arrival = [0, 2, 0]
    ∧ ¬ List.Sorted (· ≤ ·) ((createJobs [⟨1, 1, 2⟩, ⟨2, 1, 4⟩]).map Job.arrival) := by
  refine ⟨by decide, by decide⟩

/-- C5 witness: the amended theorem applied to the two-task set
`{(1,1,2), (2,1,4)}` and a transposition of it. -/
theorem c5_witness :
    ((∀ t ∈ [(⟨1, 1, 2⟩ : RMTask), ⟨2, 1, 4⟩], 0 < t.period)
      ∧ (([(⟨1, 1, 2⟩ : RMTask), ⟨2, 1, 4⟩].map RMTask.pk).Nodup)
      ∧ ([(⟨1, 1, 2⟩ : RMTask), ⟨2, 1, 4⟩].Perm [⟨2, 1, 4⟩, ⟨1, 1, 2⟩]))
    ∧ ((createJobs [⟨1, 1, 2⟩, ⟨2, 1, 4⟩]).map Job.pkPair).Nodup
    ∧ (createJobs [⟨1, 1, 2⟩, ⟨2, 1, 4⟩]).Perm (createJobs [⟨2, 1, 4⟩, ⟨1, 1, 2⟩]) :=
  ⟨⟨by decide, by decide, by decide⟩,
    (c5_jobset_generation [⟨1, 1, 2⟩, ⟨2, 1, 4⟩] [⟨2, 1, 4⟩, ⟨1, 1, 2⟩]
      (by decide) (by decide) (by decide)).2.1,
    (c5_jobset_generation [⟨1, 1, 2⟩, ⟨2, 1, 4⟩] [⟨2, 1, 4⟩, ⟨1, 1, 2⟩]
      (by decide) (by decide) (by decide)).2.2⟩

/-! ### Claim C7: the execution-slice (preemption-horizon) computation -/

/-- C7 (amended): the slice is `min(remaining, earliest qualifying arrival -
now)` — but on the RM side (`get_job_exec_time`) a candidate qualifies when it
has strictly smaller task period, work left, and its ARRIVAL is before the
selected job's absolute deadline; the claim's condition "an earlier absolute
deadline than the selected job's own deadline" is NOT what the code tests
(see the counterexample).  On the EDF side (`get_task_exec_time`), where
priority and deadline order coincide, the code's prefix scan over the
deadline-sorted queue does compute exactly the claim's slice. -/
theorem c7_slice_characterization :
    (∀ (queue : List Job) (job : Job) (now : ℤ),
      rmGetJobExecTime queue job now =
        (if (queue.filter fun j => decide (j.arrival < job.deadline)
              && decide (j.task.period < job.task.period) && !j.is_done).isEmpty
          then job.left_execution
          else min (minArrival (queue.filter fun j => decide (j.arrival < job.deadline)
              && decide (j.task.period < job.task.period) && !j.is_done) - now)
            job.left_execution))
    ∧ ∀ (queue : List ETask) (task : ETask) (now : ℤ),
        (queue.Pairwise fun a b => a.deadline ≤ b.deadline) →
        get_task_exec_time queue task now = claimSliceEDF queue task now := by
  constructor
  · intro queue job now
    have hgen : ∀ l : List Job,
        (match pyMinBy Job.arrival l with
          | none => job.left_execution
          | some nxt => min (nxt.arrival - now) job.left_execution) =
        if l.isEmpty then job.left_execution
        else min (minArrival l - now) job.left_execution := by
      intro l
      cases hm : pyMinBy Job.arrival l with
      | none =>
        rw [(pyMinBy_eq_none _ _).mp hm]
        rfl
      | some m =>
        have hspec := pyMinBy_spec _ _ m hm
        have hne : l ≠ [] := by rintro rfl; simp [pyMinBy] at hm
        rw [if_neg (by simpa [List.isEmpty_iff] using hne)]
        unfold minArrival
        simp [hspec.2]
    exact hgen (queue.filter fun j => decide (j.arrival < job.deadline)
      && decide (j.task.period < job.task.period) && !j.is_done)
  · intro queue task now hs
    have hgen : ∀ l : List ETask,
        (match pyMinBy ETask.arrival l with
          | none => task.left_execution
          | some nxt => min (nxt.arrival - now) task.left_execution) =
        if l.isEmpty then task.left_execution
        else min (minETaskArrival l - now) task.left_execution := by
      intro l
      cases hm : pyMinBy ETask.arrival l with
      | none =>
        rw [(pyMinBy_eq_none _ _).mp hm]
        rfl
      | some m =>
        have hspec := pyMinBy_spec _ _ m hm
        have hne : l ≠ [] := by rintro rfl; simp [pyMinBy] at hm
        rw [if_neg (by simpa [List.isEmpty_iff] using hne)]
        unfold minETaskArrival
        simp [hspec.2]
    unfold get_task_exec_time claimSliceEDF
    rw [takeWhileLtEqFilter ETask.deadline task.deadline queue hs]
    exact hgen (queue.filter fun t => decide (t.deadline < task.deadline))

/-- C7 counterexample: selected job `(period 10, remaining 10, arrival 0,
deadline 10)` at `now = 0`, pending job `(period 3, arrival 8, deadline 11)`.
The code truncates the slice to 8 (the candidate arrives before the selected
job's deadline and has higher priority), while the claim's rule — requiring
the candidate's absolute deadline (11) to be earlier than the selected job's
(10) — finds no qualifying job and yields the full remaining 10. -/
theorem c7_counterexample :
    rmGetJobExecTime [Job.ofTask ⟨2, 1, 3⟩ 8] (Job.ofTask ⟨1, 10, 10⟩ 0) 0 = 8
    ∧ claimSliceRM [Job.ofTask ⟨2, 1, 3⟩ 8] (Job.ofTask ⟨1, 10, 10⟩ 0) 0 = 10
    ∧ rmGetJobExecTime [Job.ofTask ⟨2, 1, 3⟩ 8] (Job.ofTask ⟨1, 10, 10⟩ 0) 0
        ≠ claimSliceRM [Job.ofTask ⟨2, 1, 3⟩ 8] (Job.ofTask ⟨1, 10, 10⟩ 0) 0 := by
  refine ⟨by decide, by decide, by decide⟩

/-- C7 witness: the EDF half of the amended theorem applied to a concrete
deadline-sorted queue. -/
theorem c7_witness :
    List.Pairwise (fun a b : ETask => a.deadline ≤ b.deadline)
      [ETask.ofJob ⟨2, 1, 4, 4⟩ 2, ETask.ofJob ⟨3, 1, 9, 9⟩ 0]
    ∧ get_task_exec_time [ETask.ofJob ⟨2, 1, 4, 4⟩ 2, ETask.ofJob ⟨3, 1, 9, 9⟩ 0]
        (ETask.ofJob ⟨1, 5, 7, 7⟩ 0) 0
      = claimSliceEDF [ETask.ofJob ⟨2, 1, 4, 4⟩ 2, ETask.ofJob ⟨3, 1, 9, 9⟩ 0]
        (ETask.ofJob ⟨1, 5, 7, 7⟩ 0) 0 :=
  ⟨by decide, c7_slice_characterization.2 _ _ 0 (by decide)⟩

/-! ### Claim C1: the RM admission decision -/

theorem utilization_lub_one : utilization_lub 1 = 1 := by
  unfold utilization_lub
  rw [Nat.cast_one, div_one, Real.rpow_one]
  ring

theorem utilization_lub_two : utilization_lub 2 = 2 * (Real.sqrt 2 - 1) := by
  unfold utilization_lub
  rw [show ((2 : ℕ) : ℝ) = 2 by norm_num, ← Real.sqrt_eq_rpow]

theorem sqrt_two_lt : Real.sqrt 2 < 1.45 := by
  have h1 := Real.sq_sqrt (show (0 : ℝ) ≤ 2 by norm_num)
  have h2 := Real.sqrt_nonneg 2
  nlinarith

/-- C1 (amended): for a non-empty task set, `RMScheduler.is_feasible` returns
`True` iff the total utilization is below the Liu & Layland bound OR below 1;
equivalently it returns `False` exactly when the utilization is ≥ 1.  The
first two branches follow the claimed three-way rule, but the third outcome
is NOT a distinct value: in the inconclusive zone (bound ≤ U < 1) the method
returns the same `True` as the sufficient case, distinguishing the two only
in a log message. -/
theorem c1_rm_decision (tasks : List RMTask) (_hne : tasks ≠ []) :
    rmIsFeasible tasks = true ↔
      ((totalUtility tasks : ℝ) < utilization_lub tasks.length
        ∨ totalUtility tasks < 1) := by
  unfold rmIsFeasible
  split_ifs with h1 h2
  · exact iff_of_true rfl (Or.inl h1)
  · refine iff_of_false (by simp) ?_
    rintro (hca | hcb)
    · exact h1 hca
    · exact absurd h2 (not_le.mpr hcb)
  · exact iff_of_true rfl (Or.inr (lt_of_not_le h2))

theorem c1_tu2 : totalUtility [⟨1, 9, 20⟩, ⟨2, 9, 20⟩] = 9/10 := by
  norm_num [totalUtility, RMTask.utility]

theorem c1_tu1 : totalUtility [⟨1, 1, 4⟩] = 1/4 := by
  norm_num [totalUtility, RMTask.utility]

/-- C1 counterexample: the two-task set with total utilization 9/10 lies in
the inconclusive zone (`utilization_lub 2 = 2(√2 - 1) ≤ 9/10 < 1`), yet the
analyzer returns for it exactly the same value as for a set satisfying the
sufficient bound (`utilization 1/4 < utilization_lub 1 = 1`) — the claimed
"distinct third outcome PossiblyFeasible as its own value" does not exist in
the code, which collapses it into `True`. -/
theorem c1_counterexample :
    utilization_lub 2 ≤ (totalUtility [⟨1, 9, 20⟩, ⟨2, 9, 20⟩] : ℝ)
    ∧ totalUtility [⟨1, 9, 20⟩, ⟨2, 9, 20⟩] < 1
    ∧ (totalUtility [⟨1, 1, 4⟩] : ℝ) < utilization_lub 1
    ∧ rmIsFeasible [⟨1, 9, 20⟩, ⟨2, 9, 20⟩] = rmIsFeasible [⟨1, 1, 4⟩] := by
  have hb2 : utilization_lub 2 ≤ ((9/10 : ℚ) : ℝ) := by
    rw [utilization_lub_two]
    have := sqrt_two_lt
    push_cast
    nlinarith
  have hb1 : ((1/4 : ℚ) : ℝ) < utilization_lub 1 := by
    rw [utilization_lub_one]
    norm_num
  have hfeas2 : rmIsFeasible [⟨1, 9, 20⟩, ⟨2, 9, 20⟩] = true := by
    unfold rmIsFeasible
    rw [if_neg, if_neg]
    · rw [c1_tu2]; norm_num
    · rw [c1_tu2]
      push_neg
      simpa [List.length] using hb2
  have hfeas1 : rmIsFeasible [⟨1, 1, 4⟩] = true := by
    unfold rmIsFeasible
    rw [if_pos]
    rw [c1_tu1]
    simpa [List.length] using hb1
  refine ⟨by rw [c1_tu2]; exact hb2, by rw [c1_tu2]; norm_num,
    by rw [c1_tu1]; exact hb1, by rw [hfeas2, hfeas1]⟩

/-- C1 witness: the amended theorem applied to a concrete singleton set. -/
theorem c1_witness :
    ([(⟨1, 1, 4⟩ : RMTask)] ≠ [])
    ∧ (rmIsFeasible [⟨1, 1, 4⟩] = true ↔
        ((totalUtility [⟨1, 1, 4⟩] : ℝ) < utilization_lub 1
          ∨ totalUtility [⟨1, 1, 4⟩] < 1)) :=
  ⟨by simp, c1_rm_decision [⟨1, 1, 4⟩] (by simp)⟩

/-! ### Claim C9: determinism and iteration-order independence -/

/-- C9 (amended): the feasibility verdict is iteration-order independent (the
utilization sum over exact rationals is permutation-invariant), and for a
FIXED queue order the embedded dispatch loop is a function, hence two runs on
the same order coincide; but the selection among jobs tied on arrival and
period depends on the iteration order of the underlying Python `set`, so two
runs of the same task set can produce different traces (see the
counterexample). -/
theorem c9_feasibility_order_independent (tasks tasks' : List RMTask)
    (h : tasks.Perm tasks') :
    rmIsFeasible tasks = rmIsFeasible tasks' := by
  unfold rmIsFeasible totalUtility
  rw [h.length_eq, (h.map RMTask.utility).sum_eq]

/-- C9 counterexample: two jobs tied on arrival (0) and period (4), presented
in the two orders a Python `set` may yield.  Both orders are sorted by
arrival (so both are possible initial queues for the same job set), yet the
dispatch loop produces different execution traces — the trace is not
independent of the collection's iteration order. -/
theorem c9_counterexample :
    ([Job.ofTask ⟨1, 1, 4⟩ 0, Job.ofTask ⟨2, 1, 4⟩ 0]).Perm
      [Job.ofTask ⟨2, 1, 4⟩ 0, Job.ofTask ⟨1, 1, 4⟩ 0]
    ∧ rmLoop 5 [Job.ofTask ⟨1, 1, 4⟩ 0, Job.ofTask ⟨2, 1, 4⟩ 0] 0 [] =
        .ok [(1, 0, 0, 1), (2, 0, 1, 1)]
    ∧ rmLoop 5 [Job.ofTask ⟨2, 1, 4⟩ 0, Job.ofTask ⟨1, 1, 4⟩ 0] 0 [] =
        .ok [(2, 0, 0, 1), (1, 0, 1, 1)]
    ∧ rmLoop 5 [Job.ofTask ⟨1, 1, 4⟩ 0, Job.ofTask ⟨2, 1, 4⟩ 0] 0 []
        ≠ rmLoop 5 [Job.ofTask ⟨2, 1, 4⟩ 0, Job.ofTask ⟨1, 1, 4⟩ 0] 0 [] := by
  refine ⟨by decide, by decide, by decide, by decide⟩

/-- C9 witness: verdict invariance applied to a concrete transposition. -/
theorem c9_witness :
    ([(⟨1, 1, 2⟩ : RMTask), ⟨2, 1, 4⟩].Perm [⟨2, 1, 4⟩, ⟨1, 1, 2⟩])
    ∧ rmIsFeasible [⟨1, 1, 2⟩, ⟨2, 1, 4⟩] = rmIsFeasible [⟨2, 1, 4⟩, ⟨1, 1, 2⟩] :=
  ⟨by decide, c9_feasibility_order_independent _ _ (by decide)⟩

/-! ### Claim C8: invariants of the RM dispatch loop -/

/-- C8: over the RM dispatch loop, (1) every job treated as arrived satisfies
`arrival ≤ now` (by construction of the prefix scan); (2) the queue produced
by any arrival re-sort (`queue.sort(key=arrival)`, applied at loop entry and
after every re-insertion of a partially executed job) is sorted by arrival;
(3) one loop iteration from a state satisfying the loop invariant
(non-empty arrival-sorted queue of unfinished jobs) never decreases `now` and
re-establishes the invariant for the next iteration, whether it idles,
dispatches-and-finishes, or dispatches-and-re-inserts. -/
theorem c8_rm_loop_invariants (queue : List Job) (now : ℤ)
    (hne : queue ≠ [])
    (hsort : queue.Pairwise fun a b => a.arrival ≤ b.arrival)
    (hleft : ∀ j ∈ queue, 0 < j.left_execution) :
    (∀ j ∈ arrivedJobs queue now, j.arrival ≤ now)
    ∧ (∀ l : List Job, (pySortBy Job.arrival l).Pairwise fun a b => a.arrival ≤ b.arrival)
    ∧ ∀ q' now' s, rmStep queue now = .ok (q', now', s) →
        now ≤ now'
        ∧ (q'.Pairwise fun a b => a.arrival ≤ b.arrival)
        ∧ ∀ j ∈ q', 0 < j.left_execution := by
  refine ⟨?_, fun l => pySortBy_pairwise Job.arrival l, ?_⟩
  · intro j hj
    have := List.mem_takeWhile_imp hj
    simpa using this
  · intro q' now' s hstep
    unfold rmStep at hstep
    cases hget : rmGetJob queue now with
    | error e => rw [hget] at hstep; cases hstep
    | ok o =>
      rw [hget] at hstep
      cases o with
      | none =>
        simp only [Except.ok.injEq, Prod.mk.injEq] at hstep
        obtain ⟨hq, hn, _hs⟩ := hstep
        subst hq
        subst hn
        refine ⟨?_, hsort, hleft⟩
        unfold rmGetJob at hget
        dsimp only at hget
        split at hget
        · cases hget
        · simp only [Except.ok.injEq] at hget
          have hnil : pySortBy (fun j => j.task.period) (arrivedJobs queue now) = [] := by
            cases hh : pySortBy (fun j => j.task.period) (arrivedJobs queue now) with
            | nil => rfl
            | cons a rest => rw [hh] at hget; simp at hget
          have harr : arrivedJobs queue now = [] := by
            have hp := pySortBy_perm (fun j => j.task.period) (arrivedJobs queue now)
            rw [hnil] at hp
            exact (List.nil_perm.mp hp).symm ▸ rfl
          match queue, hne, hsort, harr with
          | h :: t, _, hsort, harr =>
            rw [List.pairwise_cons] at hsort
            have hhd : now < h.arrival := by
              by_contra hc
              push_neg at hc
              have hcons : arrivedJobs (h :: t) now
                  = h :: (t.takeWhile fun j => decide (j.arrival ≤ now)) := by
                unfold arrivedJobs
                rw [List.takeWhile_cons, if_pos (decide_eq_true hc)]
              rw [harr] at hcons
              exact List.noConfusion hcons
            have hallgt : ∀ x ∈ h :: t, now < x.arrival := by
              intro x hx
              rcases List.mem_cons.mp hx with rfl | hxt
              · exact hhd
              · exact lt_of_lt_of_le hhd (hsort.1 x hxt)
            have hmin : now < minArrival (h :: t) := by
              unfold minArrival
              apply intListMin_gt
              · simp
              · intro a ha
                obtain ⟨x, hx, rfl⟩ := List.mem_map.mp ha
                exact hallgt x hx
            unfold idleUntilNextJob
            linarith
      | some job =>
        simp only [Except.ok.injEq, Prod.mk.injEq] at hstep
        obtain ⟨hq, hn, _hs⟩ := hstep
        unfold rmGetJob at hget
        dsimp only at hget
        split at hget
        · cases hget
        · simp only [Except.ok.injEq] at hget
          have hmin := pySortBy_head_min (fun (j : Job) => j.task.period) _ _ hget
          have hjobq : job ∈ queue := (List.takeWhile_sublist _).subset hmin.1
          have he : 0 ≤ rmGetJobExecTime (queue.erase job) job now := by
            simp only [rmGetJobExecTime]
            cases hm : pyMinBy Job.arrival ((queue.erase job).filter fun (j : Job) =>
                decide (j.arrival < job.deadline)
                  && decide (j.task.period < job.task.period) && !j.is_done) with
            | none => exact le_of_lt (hleft job hjobq)
            | some nxt =>
              have hspec := pyMinBy_spec _ _ _ hm
              have hnf := List.mem_filter.mp hspec.1
              have hnxtq : nxt ∈ queue := List.erase_subset _ _ hnf.1
              have hcond := hnf.2
              simp only [Bool.and_eq_true, decide_eq_true_eq, Bool.not_eq_true'] at hcond
              have harrgt : now < nxt.arrival := by
                by_contra hc
                push_neg at hc
                have hmem := mem_arrivedJobs_of_sorted now queue hsort nxt hnxtq hc
                have hple : job.task.period ≤ nxt.task.period := hmin.2 nxt hmem
                have := hcond.1.2
                omega
              have h2 : 0 ≤ job.left_execution := le_of_lt (hleft job hjobq)
              exact le_min (by omega) h2
          refine ⟨by omega, ?_, ?_⟩
          · rw [← hq]
            by_cases hre : 0 < ((job.compute (rmGetJobExecTime (queue.erase job) job now)).left_execution)
            · rw [if_pos hre]
              exact pySortBy_pairwise Job.arrival _
            · rw [if_neg hre]
              exact List.Pairwise.sublist (List.erase_sublist _ _) hsort
          · rw [← hq]
            by_cases hre : 0 < ((job.compute (rmGetJobExecTime (queue.erase job) job now)).left_execution)
            · rw [if_pos hre]
              intro x hx
              have hx' := (pySortBy_perm Job.arrival _).subset hx
              rcases List.mem_append.mp hx' with hxq | hxj
              · exact hleft x (List.erase_subset _ _ hxq)
              · rw [List.mem_singleton.mp hxj]
                exact hre
            · rw [if_neg hre]
              intro x hx
              exact hleft x (List.erase_subset _ _ hx)

/-- C8 witness: the invariant theorem applied to a concrete one-job state. -/
theorem c8_witness :
    (([Job.ofTask ⟨1, 2, 5⟩ 0] : List Job) ≠ []
      ∧ List.Pairwise (fun a b : Job => a.arrival ≤ b.arrival) [Job.ofTask ⟨1, 2, 5⟩ 0]
      ∧ ∀ j ∈ [Job.ofTask ⟨1, 2, 5⟩ 0], 0 < j.left_execution)
    ∧ (∀ j ∈ arrivedJobs [Job.ofTask ⟨1, 2, 5⟩ 0] 0, j.arrival ≤ 0) :=
  ⟨⟨by decide, by decide, by decide⟩,
    (c8_rm_loop_invariants [Job.ofTask ⟨1, 2, 5⟩ 0] 0 (by decide) (by decide)
      (by decide)).1⟩
